import Mathlib

/-!
# Verification of the Spot It! card generator (`src/streamlit_app.py`)

Shallow embedding of the deck generator, the card renderer, the manual
clamping step, the fixed angular auto layout, and (modelled from the spec)
the randomized collision-avoiding layout, together with proofs of the
spec's claims about them.
-/

namespace SpotIt

/-! ## Constants (`src/streamlit_app.py` lines 14-16) -/

def CARD_SIZE : ℕ := 500

def MARGIN : ℕ := 20

def SYMBOL_SIZE_DEFAULT : ℕ := 80

/-- The value `center = CARD_SIZE // 2` (line 61). -/
def center : ℕ := CARD_SIZE / 2

/-- The value `radius = (CARD_SIZE - 2 * MARGIN) // 2` (line 62). -/
def radius : ℕ := (CARD_SIZE - 2 * MARGIN) / 2

/-! ## Deck generator (`generate_spot_it_deck`, lines 38-50)

The Python loops only append to `cards`, so the function is embedded as the
concatenation of the "pencil" block (`for i in range(n)`) and the flattened
"grid" block (`for i in range(n-1): for j in range(n-1)`); the list
comprehension and the inner `for k` loop, which only appends, become maps
over `List.range (n-1)`. -/

/-- Pencil card `i`: `[0] + [i * (n - 1) + j + 1 for j in range(n - 1)]`
(line 41). -/
def pencil_card (n i : ℕ) : List ℕ :=
  0 :: (List.range (n - 1)).map (fun j => i * (n - 1) + j + 1)

/-- Grid card `(i, j)`: starts as `[i + 1]`, then for `k in range(n - 1)`
appends `n + (n - 1) * k + ((i * k + j) % (n - 1))` (lines 45-48). -/
def grid_card (n i j : ℕ) : List ℕ :=
  (i + 1) :: (List.range (n - 1)).map (fun k => n + (n - 1) * k + (i * k + j) % (n - 1))

/-- The function `generate_spot_it_deck(n)` (lines 38-50). -/
def generate_spot_it_deck (n : ℕ) : List (List ℕ) :=
  (List.range n).map (pencil_card n) ++
    ((List.range (n - 1)).map (fun i => (List.range (n - 1)).map (fun j => grid_card n i j))).flatten

/-- Python's `%` raises `ZeroDivisionError` on modulus `0`; `pymod` models
the expression `a % b` with that failure made explicit. -/
def pymod (a b : ℕ) : Option ℕ :=
  if b = 0 then none else some (a % b)

/-- Grid card `(i, j)` with the possible `ZeroDivisionError` of
`(i * k + j) % (n - 1)` (line 47) made explicit. -/
def grid_card_checked (n i j : ℕ) : Option (List ℕ) :=
  ((List.range (n - 1)).mapM (fun k =>
    (pymod (i * k + j) (n - 1)).map (fun r => n + (n - 1) * k + r))).map
    (fun l => (i + 1) :: l)

/-- The function `generate_spot_it_deck(n)` with every evaluation of `%` checked: the
result is `none` exactly when the Python function would raise. -/
def generate_spot_it_deck_checked (n : ℕ) : Option (List (List ℕ)) :=
  (((List.range (n - 1)).mapM (fun i =>
      (List.range (n - 1)).mapM (fun j => grid_card_checked n i j))).map
    (fun g => (List.range n).map (pencil_card n) ++ g.flatten))

/-! ## Helper lemmas on lists -/

theorem mapM_map_some {α β : Type} (l : List α) (f : α → Option β) (g : α → β)
    (h : ∀ a ∈ l, f a = some (g a)) : l.mapM f = some (l.map g) := by
  induction l with
  | nil => rfl
  | cons a t ih =>
    rw [List.mapM_cons, h a (List.mem_cons_self a t),
      ih (fun x hx => h x (List.mem_cons_of_mem a hx))]
    rfl

theorem flatten_map_length {α : Type} (m q : ℕ) (f : ℕ → ℕ → α) :
    (((List.range m).map (fun i => (List.range q).map (f i))).flatten).length = m * q := by
  induction m with
  | zero => simp
  | succ m ih =>
    rw [List.range_succ, List.map_append, List.flatten_append, List.length_append, ih]
    simp [Nat.succ_mul]

theorem flatten_map_getElem {α : Type} {m q i j : ℕ} (f : ℕ → ℕ → α) (hi : i < m)
    (hj : j < q) :
    (((List.range m).map (fun i => (List.range q).map (f i))).flatten)[i * q + j]? =
      some (f i j) := by
  induction m with
  | zero => omega
  | succ m ih =>
    rw [List.range_succ, List.map_append, List.flatten_append]
    rcases Nat.lt_or_ge i m with h | h
    · rw [List.getElem?_append, flatten_map_length m q f, if_pos ?bound]
      · exact ih h
      case bound =>
        have h1 : i * q + j < (i + 1) * q := by
          rw [Nat.succ_mul]; exact Nat.add_lt_add_left hj _
        have h2 : (i + 1) * q ≤ m * q := Nat.mul_le_mul_right q h
        omega
    · have hi' : i = m := by omega
      subst hi'
      rw [List.getElem?_append_right (by rw [flatten_map_length]; exact Nat.le_add_right _ _),
        flatten_map_length]
      have hsub : i * q + j - i * q = j := by omega
      rw [hsub]
      simp [List.getElem?_map, List.getElem?_range hj]

theorem qdiv_inj {q k1 r1 k2 r2 : ℕ} (hq : 0 < q) (h1 : r1 < q) (h2 : r2 < q)
    (h : q * k1 + r1 = q * k2 + r2) : k1 = k2 ∧ r1 = r2 := by
  have e1 : (q * k1 + r1) / q = k1 := by
    rw [Nat.mul_add_div hq, Nat.div_eq_of_lt h1, Nat.add_zero]
  have e2 : (q * k2 + r2) / q = k2 := by
    rw [Nat.mul_add_div hq, Nat.div_eq_of_lt h2, Nat.add_zero]
  have hk : k1 = k2 := by rw [← e1, h, e2]
  subst hk
  exact ⟨rfl, Nat.add_left_cancel h⟩

/-! ## Structure of the generated deck -/

theorem grid_card_checked_eq (n i j : ℕ) : grid_card_checked n i j = some (grid_card n i j) := by
  unfold grid_card_checked grid_card
  rw [mapM_map_some _ _ (fun k => n + (n - 1) * k + (i * k + j) % (n - 1)) ?h]
  · rfl
  case h =>
    intro k hk
    rw [List.mem_range] at hk
    have hq : n - 1 ≠ 0 := by omega
    simp [pymod, hq]

theorem checked_eq (n : ℕ) :
    generate_spot_it_deck_checked n = some (generate_spot_it_deck n) := by
  unfold generate_spot_it_deck_checked generate_spot_it_deck
  rw [mapM_map_some _ _ (fun i => (List.range (n - 1)).map (fun j => grid_card n i j)) ?hi]
  · rfl
  case hi =>
    intro i _
    exact mapM_map_some _ _ (fun j => grid_card n i j) (fun j _ => grid_card_checked_eq n i j)

theorem deck_length (n : ℕ) :
    (generate_spot_it_deck n).length = n + (n - 1) * (n - 1) := by
  unfold generate_spot_it_deck
  rw [List.length_append, flatten_map_length]
  simp

theorem deck_getElem_pencil {n i : ℕ} (hi : i < n) :
    (generate_spot_it_deck n)[i]? = some (pencil_card n i) := by
  unfold generate_spot_it_deck
  rw [List.getElem?_append, List.length_map, List.length_range, if_pos hi]
  simp [List.getElem?_map, List.getElem?_range hi]

theorem deck_getElem_grid {n i j : ℕ} (hi : i < n - 1) (hj : j < n - 1) :
    (generate_spot_it_deck n)[n + (i * (n - 1) + j)]? = some (grid_card n i j) := by
  unfold generate_spot_it_deck
  rw [List.getElem?_append_right (by simp)]
  rw [List.length_map, List.length_range]
  have hsub : n + (i * (n - 1) + j) - n = i * (n - 1) + j := by omega
  rw [hsub]
  exact flatten_map_getElem (fun i j => grid_card n i j) hi hj

/-- C10: `generate_spot_it_deck` is total on all integers `n ≥ 0`: the checked
evaluator (which returns `none` exactly when Python would raise, in particular
when `(i * k + j) % (n - 1)` is evaluated with zero modulus) always returns the
deck, and the edge results are `[]` for `n = 0` and `[[0]]` for `n = 1`. -/
theorem generate_spot_it_deck_total :
    (∀ n : ℕ, generate_spot_it_deck_checked n = some (generate_spot_it_deck n)) ∧
    generate_spot_it_deck 0 = [] ∧ generate_spot_it_deck 1 = [[0]] :=
  ⟨checked_eq, by decide, by decide⟩

/-- C4 counterexample: `generate_spot_it_deck(2)` does not fail with any error;
it returns the deck `[[0, 1], [0, 2], [1, 2]]`, refuting the claim that deck
generation fails with `InvalidParameterError` for every `n < 3`. -/
theorem generate_spot_it_deck_no_error_at_two :
    generate_spot_it_deck_checked 2 ≠ none ∧
    generate_spot_it_deck_checked 2 = some [[0, 1], [0, 2], [1, 2]] := by
  constructor
  · rw [checked_eq]; simp
  · rw [checked_eq]; decide

/-- C4 (amended): for every `n < 3` the generator raises no error at all: the
checked evaluator returns a (degenerate) deck, namely `[]` for `n = 0`,
`[[0]]` for `n = 1` and `[[0, 1], [0, 2], [1, 2]]` for `n = 2`. -/
theorem generate_spot_it_deck_small_n :
    (∀ n : ℕ, n < 3 → generate_spot_it_deck_checked n = some (generate_spot_it_deck n)) ∧
    generate_spot_it_deck 0 = [] ∧ generate_spot_it_deck 1 = [[0]] ∧
    generate_spot_it_deck 2 = [[0, 1], [0, 2], [1, 2]] :=
  ⟨fun n _ => checked_eq n, by decide, by decide, by decide⟩

/-- Witness for the amended C4 at the concrete input `n = 2`. -/
theorem generate_spot_it_deck_small_n_witness :
    2 < 3 ∧ generate_spot_it_deck_checked 2 = some (generate_spot_it_deck 2) :=
  ⟨by decide, generate_spot_it_deck_small_n.1 2 (by decide)⟩

/-- C3: writing `q = n - 1`, the deck consists first of the `n` pencil cards,
card `i` being `[0]` followed by `i * q + j + 1` for `j = 0 .. q - 1`, then of
the `q * q` grid cards, the card for `(i, j)` (at deck index `n + i * q + j`)
being `i + 1` followed by `n + q * k + ((i * k + j) mod q)` for
`k = 0 .. q - 1`; for `n = 3` the deck is exactly the seven listed cards. -/
theorem deck_emission_order :
    (∀ n i : ℕ, i < n → (generate_spot_it_deck n)[i]? =
      some (0 :: (List.range (n - 1)).map fun j => i * (n - 1) + j + 1)) ∧
    (∀ n i j : ℕ, i < n - 1 → j < n - 1 →
      (generate_spot_it_deck n)[n + i * (n - 1) + j]? =
      some ((i + 1) :: (List.range (n - 1)).map fun k =>
        n + (n - 1) * k + (i * k + j) % (n - 1))) ∧
    generate_spot_it_deck 3 = [[0,1,2],[0,3,4],[0,5,6],[1,3,5],[1,4,6],[2,3,6],[2,4,5]] := by
  refine ⟨?_, ?_, by decide⟩
  · intro n i hi
    exact deck_getElem_pencil hi
  · intro n i j hi hj
    rw [Nat.add_assoc]
    exact deck_getElem_grid hi hj

/-- Witness for C3 at `n = 3`: deck position 1 is the pencil card `[0, 3, 4]`
and deck position `3 + 0 * 2 + 1 = 4` is the grid card `[1, 4, 6]`. -/
theorem deck_emission_order_witness :
    (1 < 3 ∧ (generate_spot_it_deck 3)[1]? = some [0, 3, 4]) ∧
    (0 < 3 - 1 ∧ 1 < 3 - 1 ∧ (generate_spot_it_deck 3)[3 + 0 * (3 - 1) + 1]? = some [1, 4, 6]) :=
  ⟨⟨by decide, (deck_emission_order.1 3 1 (by decide)).trans (by decide)⟩,
   ⟨by decide, by decide, (deck_emission_order.2.1 3 0 1 (by decide) (by decide)).trans (by decide)⟩⟩

/-! ## Deck shape (membership, distinctness, symbol range, coverage) -/

theorem mem_pencil_card {n i s : ℕ} :
    s ∈ pencil_card n i ↔ s = 0 ∨ ∃ j, j < n - 1 ∧ s = i * (n - 1) + j + 1 := by
  simp only [pencil_card, List.mem_cons, List.mem_map, List.mem_range]
  constructor
  · rintro (h | ⟨j, hj, h⟩)
    · exact Or.inl h
    · exact Or.inr ⟨j, hj, h.symm⟩
  · rintro (h | ⟨j, hj, h⟩)
    · exact Or.inl h
    · exact Or.inr ⟨j, hj, h.symm⟩

theorem mem_grid_card {n i j s : ℕ} :
    s ∈ grid_card n i j ↔
      s = i + 1 ∨ ∃ k, k < n - 1 ∧ s = n + (n - 1) * k + (i * k + j) % (n - 1) := by
  simp only [grid_card, List.mem_cons, List.mem_map, List.mem_range]
  constructor
  · rintro (h | ⟨k, hk, h⟩)
    · exact Or.inl h
    · exact Or.inr ⟨k, hk, h.symm⟩
  · rintro (h | ⟨k, hk, h⟩)
    · exact Or.inl h
    · exact Or.inr ⟨k, hk, h.symm⟩

theorem mem_deck {n : ℕ} {c : List ℕ} :
    c ∈ generate_spot_it_deck n ↔
      (∃ i, i < n ∧ c = pencil_card n i) ∨
      ∃ i j, i < n - 1 ∧ j < n - 1 ∧ c = grid_card n i j := by
  simp only [generate_spot_it_deck, List.mem_append, List.mem_map, List.mem_range,
    List.mem_flatten]
  constructor
  · rintro (⟨i, hi, h⟩ | ⟨l, ⟨i, hi, rfl⟩, hc⟩)
    · exact Or.inl ⟨i, hi, h.symm⟩
    · rcases List.mem_map.mp hc with ⟨j, hj, h⟩
      exact Or.inr ⟨i, j, hi, List.mem_range.mp hj, h.symm⟩
  · rintro (⟨i, hi, rfl⟩ | ⟨i, j, hi, hj, rfl⟩)
    · exact Or.inl ⟨i, hi, rfl⟩
    · exact Or.inr ⟨(List.range (n - 1)).map (fun j => grid_card n i j), ⟨i, hi, rfl⟩,
        List.mem_map.mpr ⟨j, List.mem_range.mpr hj, rfl⟩⟩

theorem pencil_card_nodup (n i : ℕ) : (pencil_card n i).Nodup := by
  rw [pencil_card, List.nodup_cons]
  constructor
  · intro h
    rcases List.mem_map.mp h with ⟨j, _, hj⟩
    exact Nat.succ_ne_zero _ hj
  · refine List.Nodup.map ?_ (List.nodup_range _)
    intro a b h
    exact Nat.add_left_cancel (Nat.add_right_cancel h)

theorem grid_card_nodup {n i j : ℕ} (hi : i < n - 1) : (grid_card n i j).Nodup := by
  have hq : 0 < n - 1 := by omega
  rw [grid_card, List.nodup_cons]
  constructor
  · intro h
    rcases List.mem_map.mp h with ⟨k, _, hk⟩
    have h1 : i + 1 < n := by omega
    have h2 : n ≤ n + (n - 1) * k + (i * k + j) % (n - 1) := by
      calc n ≤ n + (n - 1) * k := Nat.le_add_right _ _
        _ ≤ n + (n - 1) * k + (i * k + j) % (n - 1) := Nat.le_add_right _ _
    omega
  · refine List.Nodup.map ?_ (List.nodup_range _)
    intro a b h
    dsimp only at h
    rw [Nat.add_assoc, Nat.add_assoc] at h
    have h' := Nat.add_left_cancel h
    exact (qdiv_inj hq (Nat.mod_lt _ hq) (Nat.mod_lt _ hq) h').1

theorem total_symbols_eq (n : ℕ) : n * (n - 1) + 1 = n ^ 2 - n + 1 := by
  cases n with
  | zero => rfl
  | succ m =>
    have h1 : m + 1 ≤ (m + 1) * (m + 1) := Nat.le_mul_of_pos_left _ (Nat.succ_pos m)
    rw [Nat.succ_sub_one, pow_two]
    zify [h1]
    ring

/-- C2: for every `n ≥ 3`, `generate_spot_it_deck n` returns exactly
`n ^ 2 - n + 1` cards; each card has length exactly `n` with pairwise-distinct
symbol ids, every id lies in `[0, n ^ 2 - n + 1)`, and every id in that range
appears in at least one card. -/
theorem deck_shape (n : ℕ) (hn : 3 ≤ n) :
    (generate_spot_it_deck n).length = n ^ 2 - n + 1 ∧
    (∀ c ∈ generate_spot_it_deck n,
      c.length = n ∧ c.Nodup ∧ ∀ s ∈ c, s < n ^ 2 - n + 1) ∧
    (∀ s, s < n ^ 2 - n + 1 → ∃ c ∈ generate_spot_it_deck n, s ∈ c) := by
  obtain ⟨q, rfl⟩ : ∃ q, n = q + 1 := ⟨n - 1, by omega⟩
  have hq : 0 < q := by omega
  have hsub : q + 1 - 1 = q := by omega
  have htot : (q + 1) ^ 2 - (q + 1) + 1 = (q + 1) * q + 1 := by
    rw [← total_symbols_eq, hsub]
  refine ⟨?_, ?_, ?_⟩
  · rw [deck_length, hsub, htot]
    ring
  · intro c hc
    rcases mem_deck.mp hc with ⟨i, hi, rfl⟩ | ⟨i, j, hi, hj, rfl⟩
    · refine ⟨by simp [pencil_card, hsub], pencil_card_nodup _ _, ?_⟩
      intro s hs
      rw [htot]
      rcases mem_pencil_card.mp hs with rfl | ⟨a, ha, rfl⟩
      · exact Nat.succ_pos _
      · rw [hsub] at ha ⊢
        have h1 : i * q ≤ q * q := Nat.mul_le_mul_right q (by omega)
        have h2 : (q + 1) * q = q * q + q := by ring
        linarith
    · refine ⟨by simp [grid_card, hsub], grid_card_nodup hi, ?_⟩
      intro s hs
      rw [htot]
      rw [hsub] at hi hj
      rcases mem_grid_card.mp hs with rfl | ⟨k, hk, rfl⟩
      · have h4 : q ≤ (q + 1) * q := Nat.le_mul_of_pos_left q (by omega)
        linarith
      · rw [hsub] at hk ⊢
        have hr : (i * k + j) % q < q := Nat.mod_lt _ hq
        have h1 : q * k + (i * k + j) % q < q * (k + 1) := by
          rw [Nat.mul_succ]
          exact Nat.add_lt_add_left hr _
        have h2 : q * (k + 1) ≤ q * q := Nat.mul_le_mul_left q (by omega)
        have h3 : (q + 1) * q = q + q * q := by ring
        linarith
  · intro s hs
    rw [htot] at hs
    rcases Nat.eq_zero_or_pos s with rfl | hpos
    · exact ⟨pencil_card (q + 1) 0, mem_deck.mpr (Or.inl ⟨0, by omega, rfl⟩),
        mem_pencil_card.mpr (Or.inl rfl)⟩
    · have h0 : s ≤ (q + 1) * q := Nat.lt_succ_iff.mp hs
      have h1 : s - 1 < q * (q + 1) := by
        rw [Nat.mul_comm]
        exact lt_of_lt_of_le (Nat.sub_lt hpos Nat.one_pos) h0
      have hiq : (s - 1) / q < q + 1 := Nat.div_lt_of_lt_mul h1
      have hjq : (s - 1) % q < q := Nat.mod_lt _ hq
      have hij : q * ((s - 1) / q) + (s - 1) % q = s - 1 := Nat.div_add_mod (s - 1) q
      refine ⟨pencil_card (q + 1) ((s - 1) / q),
        mem_deck.mpr (Or.inl ⟨(s - 1) / q, hiq, rfl⟩), ?_⟩
      refine mem_pencil_card.mpr (Or.inr ⟨(s - 1) % q, ?_, ?_⟩)
      · rw [hsub]
        exact hjq
      · rw [hsub, Nat.mul_comm]
        obtain ⟨M, hM⟩ : ∃ M, q * ((s - 1) / q) = M := ⟨_, rfl⟩
        rw [hM] at hij ⊢
        omega

/-- Witness for C2 at the concrete input `n = 4`. -/
theorem deck_shape_witness :
    3 ≤ 4 ∧ (generate_spot_it_deck 4).length = 4 ^ 2 - 4 + 1 :=
  ⟨by decide, (deck_shape 4 (by decide)).1⟩

/-! ## Pairwise card intersections

The four kinds of card pairs are analysed separately; only the grid-grid case
with distinct slopes needs `n - 1` prime (field arithmetic in `ZMod (n - 1)`).
All lemmas are phrased with `n = q + 1`, so that `n - 1` reduces to `q`. -/

theorem pencil_inter_pencil {q i j : ℕ} (hq : 0 < q) (hne : i ≠ j) :
    (pencil_card (q + 1) i).toFinset ∩ (pencil_card (q + 1) j).toFinset = {0} := by
  ext s
  simp only [Finset.mem_inter, List.mem_toFinset, Finset.mem_singleton, mem_pencil_card,
    Nat.add_sub_cancel]
  constructor
  · rintro ⟨h1 | ⟨a, ha, rfl⟩, h2⟩
    · exact h1
    · rcases h2 with h2 | ⟨b, hb, heq⟩
      · exact absurd h2 (Nat.succ_ne_zero _)
      · have h0 : i * q + a = j * q + b := Nat.add_right_cancel heq
        rw [Nat.mul_comm i q, Nat.mul_comm j q] at h0
        exact absurd (qdiv_inj hq ha hb h0).1 hne
  · rintro rfl
    exact ⟨Or.inl rfl, Or.inl rfl⟩

theorem pencil_zero_inter_grid {q i j : ℕ} (hi : i < q) :
    (pencil_card (q + 1) 0).toFinset ∩ (grid_card (q + 1) i j).toFinset = {i + 1} := by
  ext s
  simp only [Finset.mem_inter, List.mem_toFinset, Finset.mem_singleton, mem_pencil_card,
    mem_grid_card, Nat.add_sub_cancel, Nat.zero_mul, Nat.zero_add]
  constructor
  · rintro ⟨hA, hB⟩
    rcases hB with rfl | ⟨k, hk, rfl⟩
    · rfl
    · rcases hA with h | ⟨a, ha, heq⟩
      · exact absurd h (by simp [Nat.add_eq_zero])
      · have h2 : q + 1 ≤ q + 1 + q * k + (i * k + j) % q := by
          calc q + 1 ≤ q + 1 + q * k := Nat.le_add_right _ _
            _ ≤ q + 1 + q * k + (i * k + j) % q := Nat.le_add_right _ _
        linarith [heq, ha]
  · rintro rfl
    exact ⟨Or.inr ⟨i, hi, rfl⟩, Or.inl rfl⟩

theorem pencil_succ_inter_grid {q m i j : ℕ} (hq : 0 < q) (hm : m < q) (hi : i < q) :
    (pencil_card (q + 1) (m + 1)).toFinset ∩ (grid_card (q + 1) i j).toFinset =
      {(q + 1) + q * m + (i * m + j) % q} := by
  ext s
  simp only [Finset.mem_inter, List.mem_toFinset, Finset.mem_singleton, mem_pencil_card,
    mem_grid_card, Nat.add_sub_cancel]
  constructor
  · rintro ⟨hA, hB⟩
    rcases hA with rfl | ⟨a, ha, rfl⟩
    · rcases hB with h | ⟨k, hk, h⟩
      · exact absurd h.symm (Nat.succ_ne_zero _)
      · exact absurd h.symm (by simp [Nat.add_eq_zero])
    · rcases hB with h | ⟨k, hk, h⟩
      · have h1 : q ≤ (m + 1) * q := Nat.le_mul_of_pos_left q (Nat.succ_pos m)
        linarith [h, hi]
      · have e1 : (m + 1) * q = q * m + q := by ring
        rw [e1] at h
        have h2 : q * m + a = q * k + (i * k + j) % q := by linarith [h]
        obtain ⟨hkm, har⟩ := qdiv_inj hq ha (Nat.mod_lt _ hq) h2
        subst hkm
        rw [har]
        ring
  · rintro rfl
    refine ⟨Or.inr ⟨(i * m + j) % q, Nat.mod_lt _ hq, by ring⟩, Or.inr ⟨m, hm, rfl⟩⟩

theorem grid_inter_grid_same {q i j1 j2 : ℕ} (hq : 0 < q) (hi : i < q)
    (hj1 : j1 < q) (hj2 : j2 < q) (hne : j1 ≠ j2) :
    (grid_card (q + 1) i j1).toFinset ∩ (grid_card (q + 1) i j2).toFinset = {i + 1} := by
  ext s
  simp only [Finset.mem_inter, List.mem_toFinset, Finset.mem_singleton, mem_grid_card,
    Nat.add_sub_cancel]
  constructor
  · rintro ⟨hA, hB⟩
    rcases hA with rfl | ⟨k, hk, rfl⟩
    · rfl
    · rcases hB with h | ⟨k2, hk2, h⟩
      · have h2 : q + 1 ≤ q + 1 + q * k + (i * k + j1) % q := by
          calc q + 1 ≤ q + 1 + q * k := Nat.le_add_right _ _
            _ ≤ _ := Nat.le_add_right _ _
        linarith [h, hi]
      · have h3 : q * k + (i * k + j1) % q = q * k2 + (i * k2 + j2) % q := by linarith [h]
        obtain ⟨hkk, hrr⟩ := qdiv_inj hq (Nat.mod_lt _ hq) (Nat.mod_lt _ hq) h3
        subst hkk
        have hmod : Nat.ModEq q (i * k + j1) (i * k + j2) := hrr
        have hj : Nat.ModEq q j1 j2 := Nat.ModEq.add_left_cancel' (i * k) hmod
        have : j1 % q = j2 % q := hj
        rw [Nat.mod_eq_of_lt hj1, Nat.mod_eq_of_lt hj2] at this
        exact absurd this hne
  · rintro rfl
    exact ⟨Or.inl rfl, Or.inl rfl⟩

/-- The unique index `k` at which two grid cards with distinct slopes meet:
the solution of `(i1 - i2) * k = j2 - j1` in the field `ZMod q`. -/
def solveK (q i1 j1 i2 j2 : ℕ) : ℕ :=
  (((j2 : ZMod q) - (j1 : ZMod q)) * ((i1 : ZMod q) - (i2 : ZMod q))⁻¹).val

theorem cast_ne_of_ne {q i1 i2 : ℕ} (h1 : i1 < q) (h2 : i2 < q) (hne : i1 ≠ i2) :
    (i1 : ZMod q) ≠ (i2 : ZMod q) := fun h =>
  hne (by rw [← ZMod.val_cast_of_lt h1, ← ZMod.val_cast_of_lt h2, h])

theorem grid_inter_grid_of_ne {q i1 j1 i2 j2 : ℕ} (hp : Nat.Prime q)
    (h1 : i1 < q) (h2 : i2 < q) (hj1 : j1 < q) (hj2 : j2 < q) (hne : i1 ≠ i2) :
    (grid_card (q + 1) i1 j1).toFinset ∩ (grid_card (q + 1) i2 j2).toFinset =
      {(q + 1) + q * solveK q i1 j1 i2 j2 + (i1 * solveK q i1 j1 i2 j2 + j1) % q} := by
  haveI : Fact (Nat.Prime q) := ⟨hp⟩
  haveI : NeZero q := ⟨hp.ne_zero⟩
  have hq : 0 < q := hp.pos
  have hd : (i1 : ZMod q) - (i2 : ZMod q) ≠ 0 := sub_ne_zero.mpr (cast_ne_of_ne h1 h2 hne)
  have hKlt : solveK q i1 j1 i2 j2 < q := ZMod.val_lt _
  have hKcast : ((solveK q i1 j1 i2 j2 : ℕ) : ZMod q) =
      ((j2 : ZMod q) - j1) * ((i1 : ZMod q) - i2)⁻¹ := ZMod.natCast_rightInverse _
  have hsolve : ((i1 : ZMod q) - i2) * ((solveK q i1 j1 i2 j2 : ℕ) : ZMod q) =
      (j2 : ZMod q) - j1 := by
    rw [hKcast]
    field_simp
  have hmodK : (i1 * solveK q i1 j1 i2 j2 + j1) % q = (i2 * solveK q i1 j1 i2 j2 + j2) % q := by
    have hc : ((i1 * solveK q i1 j1 i2 j2 + j1 : ℕ) : ZMod q) =
        ((i2 * solveK q i1 j1 i2 j2 + j2 : ℕ) : ZMod q) := by
      push_cast
      linear_combination hsolve
    exact (ZMod.natCast_eq_natCast_iff _ _ _).mp hc
  ext s
  simp only [Finset.mem_inter, List.mem_toFinset, Finset.mem_singleton, mem_grid_card,
    Nat.add_sub_cancel]
  constructor
  · rintro ⟨hA, hB⟩
    rcases hA with rfl | ⟨k, hk, rfl⟩
    · rcases hB with h | ⟨k2, hk2, h⟩
      · exact absurd (Nat.add_right_cancel h) hne
      · have hle : q + 1 ≤ q + 1 + q * k2 + (i2 * k2 + j2) % q := by
          calc q + 1 ≤ q + 1 + q * k2 := Nat.le_add_right _ _
            _ ≤ _ := Nat.le_add_right _ _
        linarith [h, h1]
    · rcases hB with h | ⟨k2, hk2, h⟩
      · have hle : q + 1 ≤ q + 1 + q * k + (i1 * k + j1) % q := by
          calc q + 1 ≤ q + 1 + q * k := Nat.le_add_right _ _
            _ ≤ _ := Nat.le_add_right _ _
        linarith [h, h2]
      · have h3 : q * k + (i1 * k + j1) % q = q * k2 + (i2 * k2 + j2) % q := by linarith [h]
        obtain ⟨hkk, hrr⟩ := qdiv_inj hq (Nat.mod_lt _ hq) (Nat.mod_lt _ hq) h3
        subst hkk
        have hcast : ((i1 * k + j1 : ℕ) : ZMod q) = ((i2 * k + j2 : ℕ) : ZMod q) :=
          (ZMod.natCast_eq_natCast_iff _ _ _).mpr hrr
        have hlin : ((i1 : ZMod q) - i2) * (k : ZMod q) = (j2 : ZMod q) - j1 := by
          push_cast at hcast
          linear_combination hcast
        have hkK : (k : ZMod q) = ((solveK q i1 j1 i2 j2 : ℕ) : ZMod q) :=
          mul_left_cancel₀ hd (by rw [hlin, hsolve])
        have hkeq : k = solveK q i1 j1 i2 j2 := by
          rw [← ZMod.val_cast_of_lt hk, ← ZMod.val_cast_of_lt hKlt, hkK]
        subst hkeq
        rfl
  · rintro rfl
    refine ⟨Or.inr ⟨solveK q i1 j1 i2 j2, hKlt, rfl⟩,
      Or.inr ⟨solveK q i1 j1 i2 j2, hKlt, ?_⟩⟩
    rw [hmodK]

/-- Any retrieved deck entry is either a pencil card at its index or the grid
card determined by the excess index split base `q`. -/
theorem deck_elem_cases {q : ℕ} (hq : 0 < q) {a : ℕ} {c : List ℕ}
    (h : (generate_spot_it_deck (q + 1))[a]? = some c) :
    (a < q + 1 ∧ c = pencil_card (q + 1) a) ∨
    (∃ i j, i < q ∧ j < q ∧ a = (q + 1) + (i * q + j) ∧ c = grid_card (q + 1) i j) := by
  rcases Nat.lt_or_ge a (q + 1) with hlt | hge
  · left
    refine ⟨hlt, ?_⟩
    exact Option.some_injective _ (h.symm.trans (deck_getElem_pencil hlt))
  · right
    have hlen : a < (q + 1) + q * q := by
      have h0 := deck_length (q + 1)
      rw [Nat.add_sub_cancel] at h0
      have h1 : a < (generate_spot_it_deck (q + 1)).length := by
        by_contra hcon
        rw [List.getElem?_eq_none (by omega)] at h
        exact Option.noConfusion h
      rwa [h0] at h1
    have hmlt : a - (q + 1) < q * q := by
      obtain ⟨Q, hQ⟩ : ∃ Q, q * q = Q := ⟨_, rfl⟩
      rw [hQ] at hlen ⊢
      omega
    have hdiv : (a - (q + 1)) / q < q := Nat.div_lt_of_lt_mul hmlt
    have hmodlt : (a - (q + 1)) % q < q := Nat.mod_lt _ hq
    have hsplit : (a - (q + 1)) / q * q + (a - (q + 1)) % q = a - (q + 1) := by
      rw [Nat.mul_comm]
      exact Nat.div_add_mod (a - (q + 1)) q
    refine ⟨(a - (q + 1)) / q, (a - (q + 1)) % q, hdiv, hmodlt, ?_, ?_⟩
    · rw [hsplit]
      omega
    · have hget := deck_getElem_grid (n := q + 1) (i := (a - (q + 1)) / q)
        (j := (a - (q + 1)) % q) (by rwa [Nat.add_sub_cancel]) (by rwa [Nat.add_sub_cancel])
      rw [Nat.add_sub_cancel] at hget
      have hidx : (q + 1) + ((a - (q + 1)) / q * q + (a - (q + 1)) % q) = a := by
        rw [hsplit]
        omega
      rw [hidx] at hget
      exact Option.some_injective _ (h.symm.trans hget)

/-- C1 (amended): for every `n` such that `n - 1` is PRIME (not merely a prime
power), every two cards at distinct positions of `generate_spot_it_deck n`
share exactly one common symbol id. -/
theorem deck_pairwise_intersection {n : ℕ} (hp : Nat.Prime (n - 1)) :
    ∀ (a b : ℕ) (ca cb : List ℕ), (generate_spot_it_deck n)[a]? = some ca →
      (generate_spot_it_deck n)[b]? = some cb → a ≠ b →
      (ca.toFinset ∩ cb.toFinset).card = 1 := by
  obtain ⟨q, rfl⟩ : ∃ q, n = q + 1 := ⟨n - 1, by have := hp.two_le; omega⟩
  rw [Nat.add_sub_cancel] at hp
  have hq : 0 < q := hp.pos
  intro a b ca cb hca hcb hab
  rcases deck_elem_cases hq hca with ⟨ha1, rfl⟩ | ⟨i1, j1, hi1, hj1, haidx, rfl⟩
  · rcases deck_elem_cases hq hcb with ⟨hb1, rfl⟩ | ⟨i2, j2, hi2, hj2, hbidx, rfl⟩
    · rw [pencil_inter_pencil hq hab]
      exact Finset.card_singleton _
    · rcases Nat.eq_zero_or_pos a with rfl | hapos
      · rw [pencil_zero_inter_grid hi2]
        exact Finset.card_singleton _
      · obtain ⟨m, rfl⟩ : ∃ m, a = m + 1 := ⟨a - 1, by omega⟩
        have hm : m < q := by omega
        rw [pencil_succ_inter_grid hq hm hi2]
        exact Finset.card_singleton _
  · rcases deck_elem_cases hq hcb with ⟨hb1, rfl⟩ | ⟨i2, j2, hi2, hj2, hbidx, rfl⟩
    · rw [Finset.inter_comm]
      rcases Nat.eq_zero_or_pos b with rfl | hbpos
      · rw [pencil_zero_inter_grid hi1]
        exact Finset.card_singleton _
      · obtain ⟨m, rfl⟩ : ∃ m, b = m + 1 := ⟨b - 1, by omega⟩
        have hm : m < q := by omega
        rw [pencil_succ_inter_grid hq hm hi1]
        exact Finset.card_singleton _
    · rcases eq_or_ne i1 i2 with heq | hne2
      · subst heq
        have hjne : j1 ≠ j2 := by
          intro hj
          exact hab (by rw [haidx, hbidx, hj])
        rw [grid_inter_grid_same hq hi1 hj1 hj2 hjne]
        exact Finset.card_singleton _
      · rw [grid_inter_grid_of_ne hp hi1 hi2 hj1 hj2 hne2]
        exact Finset.card_singleton _

/-- Witness for the amended C1 at `n = 3` (so that `n - 1 = 2` is prime),
applied to the first two cards of the deck. -/
theorem deck_pairwise_intersection_witness :
    Nat.Prime (3 - 1) ∧
    (([0, 1, 2] : List ℕ).toFinset ∩ ([0, 3, 4] : List ℕ).toFinset).card = 1 :=
  ⟨by norm_num, deck_pairwise_intersection (n := 3) (by norm_num) 0 1 [0, 1, 2] [0, 3, 4]
    (by decide) (by decide) (by decide)⟩

/-- C1 counterexample: `5 - 1 = 4` is a prime power, yet the deck for `n = 5`
contains two distinct cards (positions 5 and 13, the grid cards for slopes 0
and 2) sharing the two symbols 5 and 13; so the claim is false for prime
powers that are not prime. -/
theorem deck_prime_power_counterexample :
    IsPrimePow (5 - 1 : ℕ) ∧
    ¬ (∀ (a b : ℕ) (ca cb : List ℕ), (generate_spot_it_deck 5)[a]? = some ca →
        (generate_spot_it_deck 5)[b]? = some cb → a ≠ b →
        (ca.toFinset ∩ cb.toFinset).card = 1) := by
  constructor
  · exact ⟨2, 2, Nat.prime_iff.mp (by norm_num), by norm_num, by norm_num⟩
  · intro h
    have h2 := h 5 13 [1, 5, 9, 13, 17] [3, 5, 11, 13, 19]
      (by decide) (by decide) (by decide)
    exact absurd h2 (by decide)

/-! ## Manual clamping (advanced mode, lines 195-211)

The canvas handler reads each object's `left`, `top`, `width`, `height`
(floats, modelled as `ℚ`), forms the center, and clamps it per axis against
`center ± (radius - size / 2)`. -/

/-- One axis of the clamp `max(lo, min(hi, x))` with
`lo = center - radius + half`, `hi = center + radius - half` (lines 201-208). -/
def clamp_axis (half x : ℚ) : ℚ :=
  max ((center : ℚ) - (radius : ℚ) + half) (min ((center : ℚ) + (radius : ℚ) - half) x)

/-- The clamped center for a canvas object (lines 195-210): x uses the
half-width, y the half-height, each axis independently. -/
def advanced_clamp (left top w h : ℚ) : ℚ × ℚ :=
  (clamp_axis (w / 2) (left + w / 2), clamp_axis (h / 2) (top + h / 2))

theorem clamp_axis_mem (half x : ℚ) (hhalf : half ≤ (radius : ℚ)) :
    (center : ℚ) - radius + half ≤ clamp_axis half x ∧
      clamp_axis half x ≤ (center : ℚ) + radius - half := by
  unfold clamp_axis
  constructor
  · exact le_max_left _ _
  · exact max_le (by linarith) (min_le_left _ _)

/-- C5 (amended): whenever the symbol's edge length does not exceed the
circle's diameter (`w, h ≤ 2 * radius`), the clamped center lies within
`[center - radius + size / 2, center + radius - size / 2]` on each axis, each
axis clamped independently (x depends only on `left` and `w`, y only on `top`
and `h`). For oversized symbols the two bounds cross and the claimed interval
is empty (see the counterexample). -/
theorem advanced_clamp_bounds (left top w h : ℚ)
    (hw : w ≤ 2 * (radius : ℚ)) (hh : h ≤ 2 * (radius : ℚ)) :
    ((center : ℚ) - radius + w / 2 ≤ (advanced_clamp left top w h).1 ∧
      (advanced_clamp left top w h).1 ≤ (center : ℚ) + radius - w / 2) ∧
    ((center : ℚ) - radius + h / 2 ≤ (advanced_clamp left top w h).2 ∧
      (advanced_clamp left top w h).2 ≤ (center : ℚ) + radius - h / 2) ∧
    (∀ top2 h2 : ℚ, (advanced_clamp left top2 w h2).1 = (advanced_clamp left top w h).1) ∧
    (∀ left2 w2 : ℚ, (advanced_clamp left2 top w2 h).2 = (advanced_clamp left top w h).2) :=
  ⟨clamp_axis_mem (w / 2) (left + w / 2) (by linarith),
   clamp_axis_mem (h / 2) (top + h / 2) (by linarith),
   fun _ _ => rfl, fun _ _ => rfl⟩

/-- Witness for the amended C5 at a concrete in-range placement. -/
theorem advanced_clamp_bounds_witness :
    ((80 : ℚ) ≤ 2 * (radius : ℚ) ∧ (80 : ℚ) ≤ 2 * (radius : ℚ)) ∧
    (center : ℚ) - radius + 80 / 2 ≤ (advanced_clamp 0 0 80 80).1 :=
  ⟨⟨by norm_num [radius, CARD_SIZE, MARGIN], by norm_num [radius, CARD_SIZE, MARGIN]⟩,
   (advanced_clamp_bounds 0 0 80 80 (by norm_num [radius, CARD_SIZE, MARGIN])
     (by norm_num [radius, CARD_SIZE, MARGIN])).1.1⟩

/-- C5 counterexample: with edge length 500 (exceeding the circle diameter
460) and candidate center (250, 250), the clamped x coordinate is 270, which
does not lie in the claimed interval `[270, 230]` (the bounds cross, so the
interval is empty); the claim as stated fails for oversized symbols. -/
theorem advanced_clamp_counterexample :
    ¬ ((center : ℚ) - radius + 500 / 2 ≤ (advanced_clamp 0 0 500 500).1 ∧
       (advanced_clamp 0 0 500 500).1 ≤ (center : ℚ) + radius - 500 / 2) := by
  intro hcon
  have h2 := hcon.2
  rw [show (advanced_clamp 0 0 500 500).1 = 270 by
    norm_num [advanced_clamp, clamp_axis, center, radius, CARD_SIZE, MARGIN]] at h2
  norm_num [center, radius, CARD_SIZE, MARGIN] at h2

/-! ## Fixed angular auto layout (lines 64-75 and 142-157)

`angle_step = 2 * pi / count`, `angle = i * angle_step`,
`x = center + int((radius - SYMBOL_SIZE_DEFAULT // 2) * cos(angle))` and
similarly for y with `sin`; every symbol gets edge `SYMBOL_SIZE_DEFAULT`.
The float trigonometry is modelled over `ℝ`; Python's `int()` truncation
toward zero is `pytruncR`. -/

/-- The one common placement radius `radius - SYMBOL_SIZE_DEFAULT // 2`
(lines 72-73). -/
def layout_radius : ℕ := radius - SYMBOL_SIZE_DEFAULT / 2

noncomputable def default_angle (count i : ℕ) : ℝ := i * (2 * Real.pi / count)

/-- The exact (un-truncated) center of symbol `i` of a card with `count`
symbols. -/
noncomputable def default_position_real (count i : ℕ) : ℝ × ℝ :=
  ((center : ℝ) + (layout_radius : ℝ) * Real.cos (default_angle count i),
   (center : ℝ) + (layout_radius : ℝ) * Real.sin (default_angle count i))

/-- Python's `int()` truncates toward zero. -/
noncomputable def pytruncR (x : ℝ) : ℤ := if 0 ≤ x then ⌊x⌋ else ⌈x⌉

/-- The pixel center actually stored (lines 72-74). -/
noncomputable def default_position (count i : ℕ) : ℤ × ℤ :=
  ((center : ℤ) + pytruncR ((layout_radius : ℝ) * Real.cos (default_angle count i)),
   (center : ℤ) + pytruncR ((layout_radius : ℝ) * Real.sin (default_angle count i)))

/-- The positions list built by the loop at lines 70-75. -/
noncomputable def default_positions (count : ℕ) : List (ℤ × ℤ) :=
  (List.range count).map (default_position count)

/-- The sizes list built by the loop at lines 70-75: every entry is
`SYMBOL_SIZE_DEFAULT`. -/
def default_sizes (count : ℕ) : List ℕ :=
  (List.range count).map (fun _ => SYMBOL_SIZE_DEFAULT)

/-- Squared Euclidean distance in the plane. -/
def sqDist (p q : ℝ × ℝ) : ℝ := (p.1 - q.1) ^ 2 + (p.2 - q.2) ^ 2

/-- C7: under the fixed angular auto layout, symbol `i` of a card with `count`
symbols sits at angle `2 * pi * i / count`, the consecutive angles differ by
the constant step `2 * pi / count`, every (exact) center lies at the one
common radius `layout_radius` from the canvas center, and every symbol gets
the same fixed edge length `SYMBOL_SIZE_DEFAULT`. -/
theorem default_layout_spec :
    (∀ count i : ℕ, default_angle count i = 2 * Real.pi * i / count) ∧
    (∀ count i : ℕ,
      sqDist (default_position_real count i) ((center : ℝ), (center : ℝ)) =
        (layout_radius : ℝ) ^ 2) ∧
    (∀ count i : ℕ,
      default_angle count (i + 1) - default_angle count i = 2 * Real.pi / count) ∧
    (∀ count i : ℕ, i < count →
      (default_positions count)[i]? = some (default_position count i) ∧
      (default_sizes count)[i]? = some SYMBOL_SIZE_DEFAULT) := by
  refine ⟨?_, ?_, ?_, ?_⟩
  · intro count i
    unfold default_angle
    ring
  · intro count i
    unfold sqDist default_position_real
    have h := Real.sin_sq_add_cos_sq (default_angle count i)
    linear_combination (layout_radius : ℝ) ^ 2 * h
  · intro count i
    unfold default_angle
    push_cast
    ring
  · intro count i hi
    constructor
    · unfold default_positions
      simp [List.getElem?_map, List.getElem?_range hi]
    · unfold default_sizes
      simp [List.getElem?_map, List.getElem?_range hi, List.getElem?_replicate, hi]

/-- Witness for C7 at the concrete input `count = 3`, `i = 0`. -/
theorem default_layout_spec_witness :
    0 < 3 ∧ (default_positions 3)[0]? = some (default_position 3 0) :=
  ⟨by decide, (default_layout_spec.2.2.2 3 0 (by decide)).1⟩

/-! ## Card renderer (`draw_card_with_images`, lines 52-94)

Pixel model: a canvas is a total pixel function; the symbol catalogue gives,
for each symbol id and target edge, the pixels of
`images[sym].convert("RGBA").resize((e, e))` (PIL's deterministic resampling
is abstracted as the function itself); `paste` with an RGBA mask is modelled
by per-channel alpha blending over the pasted square, and the stroked
`draw.ellipse` border (lines 55-60) is modelled as the ideal width-3 ring. -/

structure RGBA where
  r : ℕ
  g : ℕ
  b : ℕ
  a : ℕ
deriving DecidableEq

def white : RGBA := ⟨255, 255, 255, 255⟩

def black : RGBA := ⟨0, 0, 0, 255⟩

def Canvas : Type := ℤ → ℤ → RGBA

/-- The white card with its circular border (lines 53-60). -/
def base_canvas : Canvas := fun x y =>
  if ((radius : ℤ) - 3) ^ 2 ≤ (x - center) ^ 2 + (y - center) ^ 2 ∧
      (x - center) ^ 2 + (y - center) ^ 2 ≤ (radius : ℤ) ^ 2 then black else white

/-- PIL paste with an RGBA mask: per-channel alpha blend of source over
destination. A fully opaque source pixel (`a = 255`) replaces the
destination, a fully transparent one (`a = 0`) leaves it unchanged. -/
def blend (s d : RGBA) : RGBA :=
  ⟨(s.r * s.a + d.r * (255 - s.a)) / 255,
   (s.g * s.a + d.g * (255 - s.a)) / 255,
   (s.b * s.a + d.b * (255 - s.a)) / 255,
   (s.a * s.a + d.a * (255 - s.a)) / 255⟩

/-- The paste `img.paste(im, (a, b), im)` (line 92) where `im` has edge `e`. -/
def paste (img : Canvas) (tile : ℤ → ℤ → RGBA) (a b : ℤ) (e : ℕ) : Canvas :=
  fun x y =>
    if a ≤ x ∧ x < a + e ∧ b ≤ y ∧ y < b + e then blend (tile (x - a) (y - b)) (img x y)
    else img x y

/-- Symbol catalogue: `cat s e x y` is pixel `(x, y)` of symbol `s` resized
to `(e, e)` (lines 79-81). -/
def Catalog : Type := ℕ → ℕ → ℤ → ℤ → RGBA

/-- Python's `int()` truncation toward zero, on `ℚ`. -/
def pytruncQ (x : ℚ) : ℤ := if 0 ≤ x then ⌊x⌋ else ⌈x⌉

/-- The renderer's per-axis clamp (lines 84-90). Note the integer half-size
`size_px // 2` in the bounds. -/
def render_clamp (s : ℕ) (x : ℚ) : ℚ :=
  max ((center : ℚ) - (radius : ℚ) + (s / 2 : ℕ))
    (min ((center : ℚ) + (radius : ℚ) - (s / 2 : ℕ)) x)

/-- The paste top-left corner for one placement:
`(int(x - size_px / 2), int(y - size_px / 2))` of the clamped center
(line 92; here `size_px / 2` is true division). -/
def render_op (p : ℚ × ℚ) (s : ℕ) : ℤ × ℤ :=
  (pytruncQ (render_clamp s p.1 - (s : ℚ) / 2), pytruncQ (render_clamp s p.2 - (s : ℚ) / 2))

/-- The sequence of paste operations performed by the loop at lines 78-92:
one per card symbol, in card order. -/
def render_ops (card : List ℕ) (positions : List (ℚ × ℚ)) (sizes : List ℕ) :
    List (ℕ × (ℤ × ℤ) × ℕ) :=
  (card.zip (positions.zip sizes)).map fun t => (t.1, render_op t.2.1 t.2.2, t.2.2)

/-- The renderer `draw_card_with_images(card_symbols, images, positions, sizes)`
(lines 52-94) with an explicit layout. -/
def draw_card_with_images (cat : Catalog) (card : List ℕ) (positions : List (ℚ × ℚ))
    (sizes : List ℕ) : Canvas :=
  (render_ops card positions sizes).foldl
    (fun img op => paste img (cat op.1 op.2.2) op.2.1.1 op.2.1.2 op.2.2) base_canvas

theorem blend_full_alpha (s d : RGBA) (h : s.a = 255) : blend s d = s := by
  obtain ⟨r, g, b, a⟩ := s
  simp only [RGBA.mk.injEq] at h ⊢
  subst h
  unfold blend
  norm_num

theorem zip_getElem?_of {α β : Type} :
    ∀ (l : List α) (m : List β) (i : ℕ) (a : α) (b : β),
      l[i]? = some a → m[i]? = some b → (l.zip m)[i]? = some (a, b) := by
  intro l
  induction l with
  | nil =>
    intro m i a b h1 _
    simp at h1
  | cons x xs ih =>
    intro m i a b h1 h2
    cases m with
    | nil => simp at h2
    | cons y ys =>
      cases i with
      | zero =>
        simp only [List.getElem?_cons_zero, Option.some.injEq] at h1 h2
        subst h1
        subst h2
        simp [List.zip_cons_cons]
      | succ k =>
        simp only [List.getElem?_cons_succ] at h1 h2
        simpa [List.zip_cons_cons] using ih ys k a b h1 h2

theorem foldl_paste_congr (cat1 cat2 : Catalog) (card : List ℕ) :
    ∀ (l : List (ℕ × (ℤ × ℤ) × ℕ)) (c : Canvas), (∀ t ∈ l, t.1 ∈ card) →
      (∀ s ∈ card, cat1 s = cat2 s) →
      l.foldl (fun img op => paste img (cat1 op.1 op.2.2) op.2.1.1 op.2.1.2 op.2.2) c =
        l.foldl (fun img op => paste img (cat2 op.1 op.2.2) op.2.1.1 op.2.1.2 op.2.2) c := by
  intro l
  induction l with
  | nil =>
    intro c _ _
    rfl
  | cons t ts ih =>
    intro c hmem hcat
    simp only [List.foldl_cons]
    rw [hcat t.1 (hmem t (List.mem_cons_self t ts))]
    exact ih _ (fun u hu => hmem u (List.mem_cons_of_mem t hu)) hcat

/-- C8: rendering is deterministic. The renderer is a pure function of the
card, the catalogue images of the symbols on the card, the positions and the
sizes: two calls whose catalogues agree on every symbol of the card (in
particular, two calls with identical inputs) produce pixel-identical output
canvases. -/
theorem draw_card_deterministic (cat1 cat2 : Catalog) (card : List ℕ)
    (positions : List (ℚ × ℚ)) (sizes : List ℕ)
    (h : ∀ s ∈ card, cat1 s = cat2 s) :
    draw_card_with_images cat1 card positions sizes =
      draw_card_with_images cat2 card positions sizes := by
  unfold draw_card_with_images
  refine foldl_paste_congr cat1 cat2 card _ _ ?_ h
  intro t ht
  unfold render_ops at ht
  rcases List.mem_map.mp ht with ⟨u, hu, rfl⟩
  exact (List.of_mem_zip hu).1

/-- An all-black catalogue, for concrete instantiations. -/
def flat_catalog : Catalog := fun _ _ _ _ => black

/-- A catalogue differing from `flat_catalog` only at the unused symbol 5. -/
def flat_catalog2 : Catalog := fun s _ _ _ => if s = 5 then white else black

/-- Witness for C8: two catalogues that agree on the single card symbol 0
render the card pixel-identically. -/
theorem draw_card_deterministic_witness :
    draw_card_with_images flat_catalog [0] [((250 : ℚ), 250)] [80] =
      draw_card_with_images flat_catalog2 [0] [((250 : ℚ), 250)] [80] :=
  draw_card_deterministic flat_catalog flat_catalog2 [0] [((250 : ℚ), 250)] [80]
    (by
      intro s hs
      have hs0 : s = 0 := by simpa using hs
      subst hs0
      rfl)

/-- C6 counterexample: the renderer does not trust its input layout. For the
supplied center `(0, 0)` with edge 80 the paste rectangle is placed with
top-left `(20, 20)` (center `(60, 60)`, the clamped center), not top-left
`(-40, -40)` (center `(0, 0)`) as compositing "centered exactly at the
placement's center with no modification of the supplied positions" would
require. -/
theorem render_modifies_positions :
    render_ops [0] [((0 : ℚ), 0)] [80] = [(0, (20, 20), 80)] ∧
    ((20 : ℤ), (20 : ℤ)) ≠ ((-40 : ℤ), (-40 : ℤ)) := by
  constructor
  · have hclamp : render_clamp 80 0 = 60 := by
      norm_num [render_clamp, center, radius, CARD_SIZE, MARGIN]
    have hop : render_op (0 : ℚ × ℚ) 80 = (20, 20) := by
      unfold render_op
      have h1 : (0 : ℚ × ℚ).1 = 0 := rfl
      have h2 : (0 : ℚ × ℚ).2 = 0 := rfl
      rw [h1, h2, hclamp]
      norm_num [pytruncQ]
    unfold render_ops
    simp [List.zip_cons_cons, hop]
  · decide

/-- C6 (amended): the renderer, given an explicit layout, performs exactly one
paste per card symbol, in layout order, with no collision enforcement and no
dropping; each paste uses the symbol image resized to
`(edge_length, edge_length)` and is centered at the per-axis CLAMPED center
(top-left corner `clamped - size / 2`); a supplied center already within the
clamp bounds is used unchanged; and at any pixel where the final placement's
source is fully opaque, the output shows that placement (later placements
occlude earlier ones). -/
theorem renderer_spec (cat : Catalog) (card : List ℕ) (positions : List (ℚ × ℚ))
    (sizes : List ℕ) (hp : positions.length = card.length)
    (hs : sizes.length = card.length) :
    (render_ops card positions sizes).length = card.length ∧
    (∀ idx : ℕ, ∀ c : ℕ, ∀ p : ℚ × ℚ, ∀ s : ℕ, card[idx]? = some c →
      positions[idx]? = some p → sizes[idx]? = some s →
      (render_ops card positions sizes)[idx]? = some (c, render_op p s, s)) ∧
    (∀ s : ℕ, ∀ x : ℚ, (center : ℚ) - radius + (s / 2 : ℕ) ≤ x →
      x ≤ (center : ℚ) + radius - (s / 2 : ℕ) → render_clamp s x = x) ∧
    (∀ (l : List (ℕ × (ℤ × ℤ) × ℕ)) (t : ℕ × (ℤ × ℤ) × ℕ) (x y : ℤ),
      render_ops card positions sizes = l ++ [t] →
      t.2.1.1 ≤ x → x < t.2.1.1 + t.2.2 → t.2.1.2 ≤ y → y < t.2.1.2 + t.2.2 →
      (cat t.1 t.2.2 (x - t.2.1.1) (y - t.2.1.2)).a = 255 →
      draw_card_with_images cat card positions sizes x y =
        cat t.1 t.2.2 (x - t.2.1.1) (y - t.2.1.2)) := by
  refine ⟨?_, ?_, ?_, ?_⟩
  · unfold render_ops
    rw [List.length_map, List.length_zip, List.length_zip, hp, hs]
    simp
  · intro idx c p s hc hpos hsz
    unfold render_ops
    rw [List.getElem?_map,
      zip_getElem?_of card (positions.zip sizes) idx c (p, s) hc
        (zip_getElem?_of positions sizes idx p s hpos hsz)]
    rfl
  · intro s x h1 h2
    unfold render_clamp
    rw [min_eq_right h2, max_eq_right h1]
  · intro l t x y hops hx1 hx2 hy1 hy2 ha
    unfold draw_card_with_images
    rw [hops, List.foldl_append]
    simp only [List.foldl_cons, List.foldl_nil]
    unfold paste
    rw [if_pos ⟨hx1, hx2, hy1, hy2⟩]
    exact congrArg (fun z => z) (by rw [blend_full_alpha _ _ ha])

/-- Witness for the amended C6: concrete lengths discharge the layout-shape
hypotheses, and the in-bounds center `(250, 250)` with edge 80 is left
unmodified by the clamp. -/
theorem renderer_spec_witness :
    render_clamp 80 250 = 250 :=
  (renderer_spec flat_catalog [0] [((250 : ℚ), 250)] [80] rfl rfl).2.2.1 80 250
    (by norm_num [center, radius, CARD_SIZE, MARGIN])
    (by norm_num [center, radius, CARD_SIZE, MARGIN])

/-! ## Randomized collision-avoiding auto layout

This layout strategy appears only in repository variants that are not under
the provided sources (the spec records that the full source is several
near-duplicate copies of the app; the copy supplied has only the fixed
angular layout), so it is modelled from the spec, section 4.2(b). -/

/-- Modelled from the spec: an axis-aligned bounding box `(x1, y1, x2, y2)`. -/
structure Box where
  x1 : ℚ
  y1 : ℚ
  x2 : ℚ
  y2 : ℚ
deriving DecidableEq

/-- Modelled from the spec: the square bounding box of edge `s` centered at
`(x, y)`. -/
def mk_box (x y : ℚ) (s : ℕ) : Box :=
  ⟨x - (s : ℚ) / 2, y - (s : ℚ) / 2, x + (s : ℚ) / 2, y + (s : ℚ) / 2⟩

/-- Modelled from the spec: the open axis-aligned intersection test — two
boxes overlap unless one is entirely to the left, right, above or below the
other. -/
def boxes_overlap (p b : Box) : Bool :=
  !(decide (p.x2 ≤ b.x1) || decide (b.x2 ≤ p.x1) ||
    decide (p.y2 ≤ b.y1) || decide (b.y2 ≤ p.y1))

/-- Modelled from the spec: all four corners of the box lie within distance
`r` of the canvas center. -/
def corners_in_circle (r : ℚ) (b : Box) : Bool :=
  decide ((b.x1 - center) ^ 2 + (b.y1 - center) ^ 2 ≤ r ^ 2) &&
  decide ((b.x2 - center) ^ 2 + (b.y1 - center) ^ 2 ≤ r ^ 2) &&
  decide ((b.x1 - center) ^ 2 + (b.y2 - center) ^ 2 ≤ r ^ 2) &&
  decide ((b.x2 - center) ^ 2 + (b.y2 - center) ^ 2 ≤ r ^ 2)

/-- Modelled from the spec: a candidate is accepted when its corners are in
the circle and its box intersects no already-placed box. -/
def candidate_ok (r : ℚ) (placed : List Box) (b : Box) : Bool :=
  corners_in_circle r b && placed.all (fun p => !boxes_overlap b p)

/-- Modelled from the spec: the bounded random search at one size tier. The
spec samples a uniform angle and radius and converts them to a center; the
random source is abstracted as a stream `rng` of candidate centers, consumed
one per attempt (`ctr` is the running sample counter, the last argument the
remaining attempts). -/
def try_attempts (r : ℚ) (placed : List Box) (s : ℕ) (rng : ℕ → ℚ × ℚ) :
    ℕ → ℕ → Option (Box × ℕ)
  | _, 0 => none
  | ctr, fuel + 1 =>
    let c := rng ctr
    let b := mk_box c.1 c.2 s
    if candidate_ok r placed b then some (b, ctr + 1)
    else try_attempts r placed s rng (ctr + 1) fuel

/-- Modelled from the spec: the size tiers, from the default edge 80 shrinking
by the decrement 10 down to the floor 20 (configuration surface of section 6). -/
def size_tiers : List ℕ := [80, 70, 60, 50, 40, 30, 20]

/-- Modelled from the spec: try each size tier in turn, 100 attempts per
tier. -/
def try_sizes (r : ℚ) (placed : List Box) (rng : ℕ → ℚ × ℚ) :
    List ℕ → ℕ → Option (Box × ℕ × ℕ)
  | [], _ => none
  | s :: rest, ctr =>
    match try_attempts r placed s rng ctr 100 with
    | some (b, ctr2) => some (b, s, ctr2)
    | none => try_sizes r placed rng rest (ctr + 100)

/-- Modelled from the spec: greedy sequential placement of the card's symbols;
a symbol with no valid placement at any tier is dropped silently. -/
def auto_layout_core (r : ℚ) (rng : ℕ → ℚ × ℚ) :
    List ℕ → List Box → ℕ → List (ℕ × Box × ℕ)
  | [], _, _ => []
  | sym :: rest, placed, ctr =>
    match try_sizes r placed rng size_tiers ctr with
    | some (b, s, ctr2) => (sym, b, s) :: auto_layout_core r rng rest (b :: placed) ctr2
    | none => auto_layout_core r rng rest placed ctr

/-- Modelled from the spec: the randomized collision-avoiding layout for one
card. -/
def random_collision_layout (r : ℚ) (rng : ℕ → ℚ × ℚ) (card : List ℕ) :
    List (ℕ × Box × ℕ) :=
  auto_layout_core r rng card [] 0

theorem try_attempts_zero (r : ℚ) (placed : List Box) (s : ℕ) (rng : ℕ → ℚ × ℚ)
    (ctr : ℕ) : try_attempts r placed s rng ctr 0 = none := rfl

theorem try_attempts_succ (r : ℚ) (placed : List Box) (s : ℕ) (rng : ℕ → ℚ × ℚ)
    (ctr fuel : ℕ) :
    try_attempts r placed s rng ctr (fuel + 1) =
      if candidate_ok r placed (mk_box (rng ctr).1 (rng ctr).2 s) then
        some (mk_box (rng ctr).1 (rng ctr).2 s, ctr + 1)
      else try_attempts r placed s rng (ctr + 1) fuel := rfl

theorem try_sizes_nil (r : ℚ) (placed : List Box) (rng : ℕ → ℚ × ℚ) (ctr : ℕ) :
    try_sizes r placed rng [] ctr = none := rfl

theorem try_sizes_cons (r : ℚ) (placed : List Box) (rng : ℕ → ℚ × ℚ) (s : ℕ)
    (rest : List ℕ) (ctr : ℕ) :
    try_sizes r placed rng (s :: rest) ctr =
      match try_attempts r placed s rng ctr 100 with
      | some (b, ctr2) => some (b, s, ctr2)
      | none => try_sizes r placed rng rest (ctr + 100) := rfl

theorem auto_layout_core_nil (r : ℚ) (rng : ℕ → ℚ × ℚ) (placed : List Box) (ctr : ℕ) :
    auto_layout_core r rng [] placed ctr = [] := rfl

theorem auto_layout_core_cons (r : ℚ) (rng : ℕ → ℚ × ℚ) (sym : ℕ) (rest : List ℕ)
    (placed : List Box) (ctr : ℕ) :
    auto_layout_core r rng (sym :: rest) placed ctr =
      match try_sizes r placed rng size_tiers ctr with
      | some (b, s, ctr2) => (sym, b, s) :: auto_layout_core r rng rest (b :: placed) ctr2
      | none => auto_layout_core r rng rest placed ctr := rfl

theorem try_attempts_ok {r : ℚ} {placed : List Box} {s : ℕ} {rng : ℕ → ℚ × ℚ} :
    ∀ {fuel ctr : ℕ} {b : Box} {ctr2 : ℕ},
      try_attempts r placed s rng ctr fuel = some (b, ctr2) →
      candidate_ok r placed b = true ∧ ctr2 ≤ ctr + fuel := by
  intro fuel
  induction fuel with
  | zero =>
    intro ctr b ctr2 h
    rw [try_attempts_zero] at h
    exact Option.noConfusion h
  | succ fuel ih =>
    intro ctr b ctr2 h
    rw [try_attempts_succ] at h
    by_cases hc : candidate_ok r placed (mk_box (rng ctr).1 (rng ctr).2 s) = true
    · rw [if_pos hc] at h
      obtain ⟨rfl, rfl⟩ : mk_box (rng ctr).1 (rng ctr).2 s = b ∧ ctr + 1 = ctr2 := by
        simpa using h
      exact ⟨hc, by omega⟩
    · rw [if_neg hc] at h
      obtain ⟨hok, hle⟩ := ih h
      exact ⟨hok, by omega⟩

theorem try_sizes_ok {r : ℚ} {placed : List Box} {rng : ℕ → ℚ × ℚ} :
    ∀ {tiers : List ℕ} {ctr : ℕ} {b : Box} {s ctr2 : ℕ},
      try_sizes r placed rng tiers ctr = some (b, s, ctr2) →
      candidate_ok r placed b = true := by
  intro tiers
  induction tiers with
  | nil =>
    intro ctr b s ctr2 h
    rw [try_sizes_nil] at h
    exact Option.noConfusion h
  | cons t rest ih =>
    intro ctr b s ctr2 h
    rw [try_sizes_cons] at h
    cases hta : try_attempts r placed t rng ctr 100 with
    | some v =>
      rw [hta] at h
      obtain ⟨b2, c2⟩ := v
      simp only [Option.some.injEq, Prod.mk.injEq] at h
      obtain ⟨rfl, -, -⟩ := h
      exact (try_attempts_ok hta).1
    | none =>
      rw [hta] at h
      exact ih h

theorem candidate_ok_spec {r : ℚ} {placed : List Box} {b : Box}
    (h : candidate_ok r placed b = true) :
    corners_in_circle r b = true ∧ ∀ p ∈ placed, boxes_overlap b p = false := by
  unfold candidate_ok at h
  rw [Bool.and_eq_true] at h
  refine ⟨h.1, ?_⟩
  intro p hp
  have h2 := List.all_eq_true.mp h.2 p hp
  simpa using h2

theorem boxes_overlap_symm (a b : Box) : boxes_overlap a b = boxes_overlap b a := by
  unfold boxes_overlap
  by_cases h1 : a.x2 ≤ b.x1 <;> by_cases h2 : b.x2 ≤ a.x1 <;>
    by_cases h3 : a.y2 ≤ b.y1 <;> by_cases h4 : b.y2 ≤ a.y1 <;>
    simp [h1, h2, h3, h4]

theorem auto_layout_core_invariant (r : ℚ) (rng : ℕ → ℚ × ℚ) :
    ∀ (card : List ℕ) (placed : List Box) (ctr : ℕ),
      (∀ t ∈ auto_layout_core r rng card placed ctr,
        corners_in_circle r t.2.1 = true ∧ ∀ p ∈ placed, boxes_overlap t.2.1 p = false) ∧
      List.Pairwise (fun t u => boxes_overlap t.2.1 u.2.1 = false)
        (auto_layout_core r rng card placed ctr) := by
  intro card
  induction card with
  | nil =>
    intro placed ctr
    constructor
    · intro t ht
      rw [auto_layout_core_nil] at ht
      exact absurd ht (List.not_mem_nil t)
    · rw [auto_layout_core_nil]
      exact List.Pairwise.nil
  | cons sym rest ih =>
    intro placed ctr
    rw [auto_layout_core_cons]
    cases hts : try_sizes r placed rng size_tiers ctr with
    | none =>
      exact ih placed ctr
    | some v =>
      obtain ⟨b, s, ctr2⟩ := v
      have hok := candidate_ok_spec (try_sizes_ok hts)
      have IH := ih (b :: placed) ctr2
      constructor
      · intro t ht
        rcases List.mem_cons.mp ht with rfl | ht2
        · exact ⟨hok.1, hok.2⟩
        · obtain ⟨hc, hov⟩ := IH.1 t ht2
          exact ⟨hc, fun p hp => hov p (List.mem_cons_of_mem b hp)⟩
      · rw [List.pairwise_cons]
        constructor
        · intro u hu
          have h2 := (IH.1 u hu).2 b (List.mem_cons_self b placed)
          rw [boxes_overlap_symm]
          exact h2
        · exact IH.2

/-- C9 (spec-modelled): for any candidate stream, any radius and any card, the
randomized collision-avoiding layout returns only placements whose bounding
boxes are pairwise non-overlapping (open axis-aligned test) and whose four
corners all lie within the inscribed circle; and any accepted candidate at a
size tier is found within at most 100 attempts (the sample counter advances by
at most 100 per tier). -/
theorem random_collision_layout_spec (r : ℚ) (rng : ℕ → ℚ × ℚ) (card : List ℕ) :
    List.Pairwise (fun t u => boxes_overlap t.2.1 u.2.1 = false)
      (random_collision_layout r rng card) ∧
    (∀ t ∈ random_collision_layout r rng card, corners_in_circle r t.2.1 = true) ∧
    (∀ (placed : List Box) (s ctr : ℕ) (b : Box) (ctr2 : ℕ),
      try_attempts r placed s rng ctr 100 = some (b, ctr2) → ctr2 ≤ ctr + 100) := by
  refine ⟨(auto_layout_core_invariant r rng card [] 0).2, ?_, ?_⟩
  · intro t ht
    exact ((auto_layout_core_invariant r rng card [] 0).1 t ht).1
  · intro placed s ctr b ctr2 h
    exact (try_attempts_ok h).2

/-- A concrete constant candidate stream (always the canvas center). -/
def const_rng : ℕ → ℚ × ℚ := fun _ => ((250 : ℚ), (250 : ℚ))

/-- Witness for C9: with the constant stream, the first candidate at tier 80
is accepted immediately (one sample consumed), and the attempt bound applies. -/
theorem random_collision_layout_spec_witness :
    try_attempts 230 [] 80 const_rng 0 100 = some (mk_box 250 250 80, 1) ∧ 1 ≤ 0 + 100 := by
  have hcand : candidate_ok 230 [] (mk_box (const_rng 0).1 (const_rng 0).2 80) = true := by
    norm_num [candidate_ok, corners_in_circle, mk_box, const_rng, center, radius,
      CARD_SIZE, MARGIN]
  have heval : try_attempts 230 [] 80 const_rng 0 100 = some (mk_box 250 250 80, 1) := by
    rw [show (100 : ℕ) = 99 + 1 from rfl, try_attempts_succ, if_pos hcand]
    rfl
  exact ⟨heval, (random_collision_layout_spec 230 const_rng [0, 1]).2.2 [] 80 0
    (mk_box 250 250 80) 1 heval⟩

end SpotIt
